import Mathlib

/-!
Verification of the pysam2 repository against its specification.

The repository's own Python sources (src/pysam/__init__.py, src/setup.py)
are pure glue around the htslib native library; the specification defines,
at design level, the block-compressed randomly-indexable genomic record
store that the wrapper exposes.  The engine itself (block compression,
virtual offsets, record codec, index, iterator) is not present under the
repository's source tree, so those components are modelled from the spec,
faithfully to its words; the Python glue (module body, get_libraries) is
embedded directly from the source.

Buffers and byte strings are modelled as `List Nat`; machine integers as
`Nat` with explicit bounds where the spec demands them (e.g. the
within-block offset bound 2^16 of virtual offsets).
-/

namespace Pysam2

/-! ## Error taxonomy (spec §7) -/

/-- Modelled from the spec: the error taxonomy of §7 for the engine that is
absent from src/ (it lives in the wrapped native library): CorruptBlockError,
TruncatedStreamError, TruncatedRecordError, UnsortedInputError,
InvalidOffsetError, UnsupportedIndexVersionError, RegionNotFoundError. -/
inductive EngineError where
  | corruptBlock
  | truncatedStream
  | truncatedRecord
  | unsortedInput (at_ : Nat)
  | invalidOffset
  | unsupportedIndexVersion
  | regionNotFound
  deriving DecidableEq, Repr

/-! ## Block Compression Codec (spec §4.1)

Modelled from the spec: the block compression codec is absent from src/
(it lives in the wrapped native library).  Following §4.1, `compress`
produces a self-contained block that embeds its own uncompressed size and
an integrity checksum; `decompress` is a function of the single block
alone (independently decompressible), failing with `corruptBlock` when
the checksum or the embedded size disagrees with the expanded payload.
The concrete compression scheme is a run-length coding, which the spec
leaves open. -/

/-- Run-length coding of a buffer: a list of (run length, value) pairs. -/
def runEncode : List Nat → List (Nat × Nat)
  | [] => []
  | x :: xs =>
    match runEncode xs with
    | [] => [(1, x)]
    | (n, y) :: rest => if x = y then (n + 1, y) :: rest else (1, x) :: (n, y) :: rest

/-- Expansion of a run-length coded payload back into a buffer. -/
def runExpand : List (Nat × Nat) → List Nat
  | [] => []
  | (n, y) :: rest => List.replicate n y ++ runExpand rest

/-- Integrity checksum of a buffer, modelled as the byte sum mod 2^32. -/
def checksumOf (b : List Nat) : Nat := b.sum % 2 ^ 32

/-- Modelled from the spec (§4.1, §3 "Block"): a compressed block embedding
its own uncompressed size, run-length payload and integrity checksum. -/
structure CompressedBlock where
  usize : Nat
  runs : List (Nat × Nat)
  checksum : Nat
  deriving DecidableEq, Repr

/-- Modelled from the spec: `compress(buffer) -> compressed_block` (§4.1).
Stateless; embeds the uncompressed size and the checksum in the block. -/
def compress (b : List Nat) : CompressedBlock :=
  { usize := b.length, runs := runEncode b, checksum := checksumOf b }

/-- Modelled from the spec: `decompress(compressed_block) -> buffer` (§4.1).
A function of the single block alone; fails with `corruptBlock` when the
embedded uncompressed size or the checksum does not match the payload. -/
def decompress (blk : CompressedBlock) : Except EngineError (List Nat) :=
  let buf := runExpand blk.runs
  if buf.length = blk.usize ∧ checksumOf buf = blk.checksum then
    Except.ok buf
  else
    Except.error EngineError.corruptBlock

lemma runExpand_runEncode (b : List Nat) : runExpand (runEncode b) = b := by
  induction b with
  | nil => rfl
  | cons x xs ih =>
    cases h : runEncode xs with
    | nil =>
      simp only [runEncode, h, runExpand]
      simpa [h, runExpand] using ih
    | cons p rest =>
      obtain ⟨n, y⟩ := p
      by_cases hxy : x = y
      · subst hxy
        simp only [runEncode, h, if_pos rfl, runExpand]
        rw [h, runExpand] at ih
        rw [List.replicate_succ, List.cons_append, ih]
      · simp only [runEncode, h, if_neg hxy, runExpand]
        rw [h] at ih
        simpa [runExpand] using ih

/-- C2: for every buffer `b`, `decompress (compress b) = ok b`, the
compressed block embeds the uncompressed size of `b`, and decompression is
a function of the single block alone (no neighbouring state exists in its
signature), so each block is independently decompressible. -/
theorem decompress_compress (b : List Nat) :
    decompress (compress b) = Except.ok b ∧ (compress b).usize = b.length := by
  constructor
  · simp [decompress, compress, runExpand_runEncode]
  · rfl

/-! ## Virtual Offset Addressing (spec §4.2)

Modelled from the spec: virtual offset addressing is absent from src/ (it
lives in the wrapped native library).  §3: a virtual offset is
(compressed-file byte offset of a block's start) × 2^16 + (offset within
that block's decompressed payload); §4.2: the within-block offset must be
below 2^16, otherwise `InvalidOffsetError`. -/

/-- Modelled from the spec: `encode(block_start, within_block_offset) ->
offset` (§4.2); signals `invalidOffset` when `within_block_offset ≥ 2^16`. -/
def voEncode (blockStart within : Nat) : Except EngineError Nat :=
  if within < 2 ^ 16 then Except.ok (blockStart * 2 ^ 16 + within)
  else Except.error EngineError.invalidOffset

/-- Modelled from the spec: `decode(offset) -> (block_start,
within_block_offset)` (§4.2). -/
def voDecode (v : Nat) : Nat × Nat := (v / 2 ^ 16, v % 2 ^ 16)

lemma voEncode_ok {b w : Nat} (h : w < 2 ^ 16) :
    voEncode b w = Except.ok (b * 2 ^ 16 + w) := by
  unfold voEncode
  rw [if_pos h]

lemma voDecode_mul_add {b w : Nat} (h : w < 2 ^ 16) :
    voDecode (b * 2 ^ 16 + w) = (b, w) := by
  unfold voDecode
  have hpow : (2 : Nat) ^ 16 = 65536 := by norm_num
  rw [hpow] at h ⊢
  have h1 : (b * 65536 + w) / 65536 = b := by omega
  have h2 : (b * 65536 + w) % 65536 = w := by omega
  rw [h1, h2]

/-- C4: for every pair with `within < 2^16`, decoding the encoded virtual
offset recovers the pair, the encoding being `blockStart * 2^16 + within`;
a within-block offset `≥ 2^16` is signalled as `invalidOffset`. -/
theorem voDecode_voEncode (b w : Nat) (h : w < 2 ^ 16) :
    voEncode b w = Except.ok (b * 2 ^ 16 + w) ∧
      voDecode (b * 2 ^ 16 + w) = (b, w) ∧
      (∀ w', 2 ^ 16 ≤ w' → voEncode b w' = Except.error EngineError.invalidOffset) := by
  refine ⟨voEncode_ok h, voDecode_mul_add h, fun w' hw' => ?_⟩
  unfold voEncode
  rw [if_neg (Nat.not_lt.mpr hw')]

/-- Witness for C4 at block start 3, within-block offset 5 (and 70000 as
the invalid offset). -/
theorem voDecode_voEncode_witness :
    voEncode 3 5 = Except.ok (3 * 2 ^ 16 + 5) ∧
      voDecode (3 * 2 ^ 16 + 5) = (3, 5) ∧
      (∀ w', 2 ^ 16 ≤ w' → voEncode 3 w' = Except.error EngineError.invalidOffset) :=
  voDecode_voEncode 3 5 (by norm_num)

/-- C5: on valid pairs, arithmetic comparison of encoded virtual offsets is
exactly lexicographic comparison of (block start, within-block offset):
no decoding is needed to order two offsets. -/
theorem voEncode_le_iff_lex (b1 o1 b2 o2 : Nat) (h1 : o1 < 2 ^ 16) (h2 : o2 < 2 ^ 16) :
    ∀ v1 v2, voEncode b1 o1 = Except.ok v1 → voEncode b2 o2 = Except.ok v2 →
      (v1 ≤ v2 ↔ (b1 < b2 ∨ (b1 = b2 ∧ o1 ≤ o2))) := by
  intro v1 v2 hv1 hv2
  rw [voEncode_ok h1] at hv1
  rw [voEncode_ok h2] at hv2
  cases hv1
  cases hv2
  constructor
  · intro hle
    rcases Nat.lt_trichotomy b1 b2 with hb | hb | hb
    · exact Or.inl hb
    · subst hb
      exact Or.inr ⟨rfl, by omega⟩
    · exfalso
      have : b2 + 1 ≤ b1 := hb
      have : (b2 + 1) * 2 ^ 16 ≤ b1 * 2 ^ 16 := Nat.mul_le_mul_right _ this
      omega
  · rintro (hb | ⟨rfl, ho⟩)
    · have : b1 + 1 ≤ b2 := hb
      have : (b1 + 1) * 2 ^ 16 ≤ b2 * 2 ^ 16 := Nat.mul_le_mul_right _ this
      omega
    · omega

/-- Witness for C5 at the pairs (1, 70) and (2, 3): the encoded offsets
compare like the pairs. -/
theorem voEncode_le_iff_lex_witness :
    1 * 2 ^ 16 + 70 ≤ 2 * 2 ^ 16 + 3 ↔ (1 < 2 ∨ (1 = 2 ∧ 70 ≤ 3)) :=
  voEncode_le_iff_lex 1 70 2 3 (by norm_num) (by norm_num)
    (1 * 2 ^ 16 + 70) (2 * 2 ^ 16 + 3) (by norm_num [voEncode]) (by norm_num [voEncode])

/-! ## Compressed stream and truncation detection (spec §4.1, §6, §8)

Modelled from the spec: the compressed stream layer is absent from src/
(it lives in the wrapped native library).  §6: a compressed stream is a
sequence of compressed blocks terminated by an empty marker block.  §4.1:
decompression fails with `TruncatedStreamError` if the terminal marker is
absent.  §8 scenario: opening a file whose terminal empty block is missing
succeeds; the error surfaces on the first decompression attempt that
reaches the truncation point. -/

/-- The distinguished empty terminal block marking end-of-stream (§4.1). -/
def terminalBlock : CompressedBlock := compress []

/-- Modelled from the spec: an open handle over a compressed stream; it
owns the read position, modelled as the list of blocks not yet consumed. -/
structure StreamHandle where
  blocks : List CompressedBlock
  deriving Repr

/-- Modelled from the spec: `open` wraps the byte stream in a handle.  It
performs no decompression and no validation, so it cannot observe a missing
terminal marker; it always succeeds. -/
def openStream (s : List CompressedBlock) : Except EngineError StreamHandle :=
  Except.ok ⟨s⟩

/-- Modelled from the spec: one decompression step.  `none` signals the
terminal marker (normal end of stream); running out of blocks without
having seen the marker is the truncation point and raises
`truncatedStream`; a malformed block raises `corruptBlock`. -/
def nextBlock (h : StreamHandle) :
    Except EngineError (Option (List Nat) × StreamHandle) :=
  match h.blocks with
  | [] => Except.error EngineError.truncatedStream
  | blk :: rest =>
    if blk = terminalBlock then Except.ok (none, ⟨rest⟩)
    else
      match decompress blk with
      | Except.error e => Except.error e
      | Except.ok buf => Except.ok (some buf, ⟨rest⟩)

/-- Drain a handle: decompress block after block until the terminal marker,
collecting the buffers; surfaces the first error met. -/
def readAllBuffers (h : StreamHandle) : Except EngineError (List (List Nat)) :=
  match hb : h.blocks with
  | [] => Except.error EngineError.truncatedStream
  | _ :: rest =>
    match nextBlock h with
    | Except.error e => Except.error e
    | Except.ok (none, _) => Except.ok []
    | Except.ok (some buf, _) =>
      match readAllBuffers ⟨rest⟩ with
      | Except.error e => Except.error e
      | Except.ok bufs => Except.ok (buf :: bufs)
termination_by h.blocks.length
decreasing_by simp [hb]

lemma compress_ne_terminal {b : List Nat} (hb : b ≠ []) :
    compress b ≠ terminalBlock := by
  intro h
  have := congrArg CompressedBlock.usize h
  simp [compress, terminalBlock] at this
  exact hb this

lemma nextBlock_cons_compress {b : List Nat} (hb : b ≠ []) (rest : List CompressedBlock) :
    nextBlock ⟨compress b :: rest⟩ = Except.ok (some b, ⟨rest⟩) := by
  unfold nextBlock
  simp only
  rw [if_neg (compress_ne_terminal hb), (decompress_compress b).1]

lemma readAllBuffers_map_compress (bufs : List (List Nat))
    (h : ∀ b ∈ bufs, b ≠ []) (tail : List CompressedBlock) :
    readAllBuffers ⟨bufs.map compress ++ tail⟩ =
      match readAllBuffers ⟨tail⟩ with
      | Except.error e => Except.error e
      | Except.ok rem => Except.ok (bufs ++ rem) := by
  induction bufs with
  | nil =>
    simp only [List.map_nil, List.nil_append]
    cases readAllBuffers ⟨tail⟩ <;> simp
  | cons b bs ih =>
    have hb : b ≠ [] := h b (List.mem_cons_self b bs)
    have hbs : ∀ x ∈ bs, x ≠ [] := fun x hx => h x (List.mem_cons_of_mem b hx)
    rw [List.map_cons, List.cons_append, readAllBuffers]
    simp only
    rw [nextBlock_cons_compress hb, ih hbs]
    cases readAllBuffers ⟨tail⟩ <;> simp

lemma readAllBuffers_complete (bufs : List (List Nat))
    (h : ∀ b ∈ bufs, b ≠ []) :
    readAllBuffers ⟨bufs.map compress ++ [terminalBlock]⟩ = Except.ok bufs := by
  rw [readAllBuffers_map_compress bufs h [terminalBlock], readAllBuffers]
  simp [nextBlock, terminalBlock]

lemma readAllBuffers_truncated (bufs : List (List Nat))
    (h : ∀ b ∈ bufs, b ≠ []) :
    readAllBuffers ⟨bufs.map compress⟩ = Except.error EngineError.truncatedStream := by
  have hx := readAllBuffers_map_compress bufs h []
  rw [List.append_nil] at hx
  rw [hx, readAllBuffers]

/-- C8: a compressed stream of non-empty buffers whose terminal empty
marker block is absent opens without error, yet draining it raises
`truncatedStream` exactly when decompression reaches the truncation point:
every real block before it decompresses fine, as the same drain of the
stream with the marker appended returns all the buffers. -/
theorem truncated_stream_detection (bufs : List (List Nat))
    (h : ∀ b ∈ bufs, b ≠ []) :
    openStream (bufs.map compress) = Except.ok ⟨bufs.map compress⟩ ∧
      readAllBuffers ⟨bufs.map compress⟩ = Except.error EngineError.truncatedStream ∧
      readAllBuffers ⟨bufs.map compress ++ [terminalBlock]⟩ = Except.ok bufs := by
  exact ⟨rfl, readAllBuffers_truncated bufs h, readAllBuffers_complete bufs h⟩

/-- Witness for C8 on the two-block stream of buffers [1, 2] and [3]. -/
theorem truncated_stream_detection_witness :
    openStream ([[1, 2], [3]].map compress) = Except.ok ⟨[[1, 2], [3]].map compress⟩ ∧
      readAllBuffers ⟨[[1, 2], [3]].map compress⟩ =
        Except.error EngineError.truncatedStream ∧
      readAllBuffers ⟨[[1, 2], [3]].map compress ++ [terminalBlock]⟩ =
        Except.ok [[1, 2], [3]] :=
  truncated_stream_detection [[1, 2], [3]] (by decide)

/-! ## Record Codec (spec §4.3, §3 "Record", §9)

Modelled from the spec: the record codec is absent from src/ (it lives in
the wrapped native library).  §3: a record carries a reference sequence id,
a 0-based start position, a span length, and a format-specific payload —
CIGAR/sequence/qualities for alignments, alleles/genotypes for variants —
modelled per §9 as a tagged variant.  §4.3: variable-length fields are
length-prefixed, the encoder recomputes and writes those lengths itself,
and decoding validates a declared record length against the remaining
buffer, failing with `truncatedRecord` on shortfall. -/

/-- Modelled from the spec (§3, §9): the format-specific payload of a
record, a tagged variant over the alignment and variant record kinds. -/
inductive RecPayload where
  | alignment (cigar seqn quals : List Nat)
  | variant (alleles genotypes : List Nat)
  deriving DecidableEq, Repr

/-- Modelled from the spec (§3 "Record"): one alignment or variant call. -/
structure Record where
  refId : Nat
  start : Nat
  span : Nat
  name : List Nat
  payload : RecPayload
  deriving DecidableEq, Repr

/-- Length-prefixed serialization of a variable-length field (§4.3): the
encoder computes and writes the length itself. -/
def withLen (l : List Nat) : List Nat := l.length :: l

/-- Read one length-prefixed field, validating the declared length against
the remaining buffer (`truncatedRecord` on shortfall). -/
def readLen : List Nat → Except EngineError (List Nat × List Nat)
  | [] => Except.error EngineError.truncatedRecord
  | n :: t =>
    if n ≤ t.length then Except.ok (t.take n, t.drop n)
    else Except.error EngineError.truncatedRecord

/-- Serialize a payload behind its format tag (0 = alignment, 1 = variant). -/
def encodePayload : RecPayload → List Nat
  | RecPayload.alignment c s q => 0 :: (withLen c ++ withLen s ++ withLen q)
  | RecPayload.variant a g => 1 :: (withLen a ++ withLen g)

/-- Parse a payload, dispatching on the format tag. -/
def decodePayload : List Nat → Except EngineError (RecPayload × List Nat)
  | 0 :: rest => do
    let (c, r1) ← readLen rest
    let (s, r2) ← readLen r1
    let (q, r3) ← readLen r2
    Except.ok (RecPayload.alignment c s q, r3)
  | 1 :: rest => do
    let (a, r1) ← readLen rest
    let (g, r2) ← readLen r1
    Except.ok (RecPayload.variant a g, r2)
  | _ => Except.error EngineError.truncatedRecord

/-- Modelled from the spec: `encode(record) -> bytes` (§4.3).  The fixed
fields are followed by the length-prefixed name and the tagged payload; the
whole body is itself length-prefixed so the decoder can validate it. -/
def encodeRecord (r : Record) : List Nat :=
  withLen (r.refId :: r.start :: r.span :: (withLen r.name ++ encodePayload r.payload))

/-- Parse a record body (everything after the declared record length). -/
def parseBody (body : List Nat) : Except EngineError Record :=
  match body with
  | refId :: st :: sp :: rest => do
    let (nm, r1) ← readLen rest
    let (p, r2) ← decodePayload r1
    if r2 = [] then Except.ok ⟨refId, st, sp, nm, p⟩
    else Except.error EngineError.truncatedRecord
  | _ => Except.error EngineError.truncatedRecord

/-- Decode one record off the front of a buffer, returning the unread
suffix; validates the declared record length against the remaining buffer
size, failing with `truncatedRecord` on shortfall (§4.3). -/
def decodeOne (buf : List Nat) : Except EngineError (Record × List Nat) :=
  match buf with
  | [] => Except.error EngineError.truncatedRecord
  | len :: rest =>
    if len ≤ rest.length then
      match parseBody (rest.take len) with
      | Except.ok r => Except.ok (r, rest.drop len)
      | Except.error e => Except.error e
    else Except.error EngineError.truncatedRecord

/-- Modelled from the spec: `decode(block_buffer, cursor) -> (record,
next_cursor)` (§4.3). -/
def decodeAt (buf : List Nat) (cursor : Nat) : Except EngineError (Record × Nat) :=
  match decodeOne (buf.drop cursor) with
  | Except.ok (r, remaining) =>
    Except.ok (r, cursor + ((buf.drop cursor).length - remaining.length))
  | Except.error e => Except.error e

lemma readLen_withLen (l rest : List Nat) :
    readLen (withLen l ++ rest) = Except.ok (l, rest) := by
  show readLen (l.length :: (l ++ rest)) = Except.ok (l, rest)
  simp only [readLen]
  rw [if_pos (by simp), List.take_left, List.drop_left]

lemma decodePayload_encodePayload (p : RecPayload) (rest : List Nat) :
    decodePayload (encodePayload p ++ rest) = Except.ok (p, rest) := by
  cases p with
  | alignment c s q =>
    simp only [encodePayload, List.cons_append, List.append_assoc]
    simp only [decodePayload, readLen_withLen, bind, Except.bind]
  | variant a g =>
    simp only [encodePayload, List.cons_append, List.append_assoc]
    simp only [decodePayload, readLen_withLen, bind, Except.bind]

lemma decodePayload_encodePayload_nil (p : RecPayload) :
    decodePayload (encodePayload p) = Except.ok (p, []) := by
  have h := decodePayload_encodePayload p []
  rwa [List.append_nil] at h

lemma parseBody_encodeRecord (r : Record) :
    parseBody (r.refId :: r.start :: r.span :: (withLen r.name ++ encodePayload r.payload)) =
      Except.ok r := by
  simp only [parseBody, readLen_withLen, bind, Except.bind,
    decodePayload_encodePayload_nil, if_true]

lemma decodeOne_encodeRecord (r : Record) (rest : List Nat) :
    decodeOne (encodeRecord r ++ rest) = Except.ok (r, rest) := by
  show decodeOne ((r.refId :: r.start :: r.span ::
      (withLen r.name ++ encodePayload r.payload)).length ::
      ((r.refId :: r.start :: r.span :: (withLen r.name ++ encodePayload r.payload)) ++ rest)) = _
  simp only [decodeOne]
  rw [if_pos (by simp), List.take_left, List.drop_left, parseBody_encodeRecord]

/-- C3: for every record `r`, decoding the bytes produced by encoding `r`
yields `r` back field-for-field, together with the cursor one past the
encoded bytes. -/
theorem decode_encode_record (r : Record) :
    decodeAt (encodeRecord r) 0 = Except.ok (r, (encodeRecord r).length) := by
  unfold decodeAt
  rw [List.drop_zero]
  have h := decodeOne_encodeRecord r []
  rw [List.append_nil] at h
  rw [h]
  simp

/-! ## Hierarchical binning (spec §4.4, §9)

Modelled from the spec: the index layer is absent from src/ (it lives in
the wrapped native library).  §4.4: records are assigned to hierarchical
bins by genomic interval using a fixed binning scheme — an interval tree
flattened into power-of-8 nested bin ids.  The concrete scheme below is the
classic 6-level power-of-8 scheme over 2^29 coordinates (levels at shifts
26, 23, 20, 17 and 14, with offsets 1, 9, 73, 585 and 4681, plus root bin
0), which §9 leaves as the implementer's documented choice. -/

/-- Bin of the half-open interval [beg, e2): the smallest bin wholly
containing it, searched from the finest level up. -/
def reg2bin (beg e2 : Nat) : Nat :=
  if beg >>> 14 = (e2 - 1) >>> 14 then 4681 + (beg >>> 14)
  else if beg >>> 17 = (e2 - 1) >>> 17 then 585 + (beg >>> 17)
  else if beg >>> 20 = (e2 - 1) >>> 20 then 73 + (beg >>> 20)
  else if beg >>> 23 = (e2 - 1) >>> 23 then 9 + (beg >>> 23)
  else if beg >>> 26 = (e2 - 1) >>> 26 then 1 + (beg >>> 26)
  else 0

/-- All bins of one level whose windows meet [beg, e] (e inclusive). -/
def binRange (off shift beg e : Nat) : List Nat :=
  (List.range ((e >>> shift) - (beg >>> shift) + 1)).map (fun k => off + (beg >>> shift) + k)

/-- All bins, over every level, whose windows could hold a record
overlapping the half-open query interval [beg, e2). -/
def reg2bins (beg e2 : Nat) : List Nat :=
  0 :: (binRange 1 26 beg (e2 - 1) ++ binRange 9 23 beg (e2 - 1) ++
    binRange 73 20 beg (e2 - 1) ++ binRange 585 17 beg (e2 - 1) ++
    binRange 4681 14 beg (e2 - 1))

lemma mem_binRange {off shift beg e x : Nat} (h1 : beg >>> shift ≤ x)
    (h2 : x ≤ e >>> shift) : off + x ∈ binRange off shift beg e := by
  unfold binRange
  refine List.mem_map.mpr ⟨x - beg >>> shift, List.mem_range.mpr (by omega), by omega⟩

lemma shiftRight_mono {a b : Nat} (s : Nat) (h : a ≤ b) : a >>> s ≤ b >>> s := by
  simp only [Nat.shiftRight_eq_div_pow]
  exact Nat.div_le_div_right h

/-- Core completeness of the binning scheme: the bin of any record interval
overlapping the query interval is among the bins the query visits, so the
index has no false negatives at bin level. -/
lemma reg2bin_mem_reg2bins {rb re qb qe : Nat} (hrb : rb < re)
    (h1 : rb < qe) (h2 : qb < re) : reg2bin rb re ∈ reg2bins qb qe := by
  have hre : rb ≤ re - 1 := by omega
  have hqe : rb ≤ qe - 1 := by omega
  have hqb : qb ≤ re - 1 := by omega
  unfold reg2bin reg2bins
  split_ifs with h14 h17 h20 h23 h26
  · have hlo : qb >>> 14 ≤ rb >>> 14 := by
      have := shiftRight_mono 14 hqb
      omega
    have hhi : rb >>> 14 ≤ (qe - 1) >>> 14 := shiftRight_mono 14 hqe
    exact List.mem_cons_of_mem _ (List.mem_append_right _ (mem_binRange hlo hhi))
  · have hlo : qb >>> 17 ≤ rb >>> 17 := by
      have := shiftRight_mono 17 hqb
      omega
    have hhi : rb >>> 17 ≤ (qe - 1) >>> 17 := shiftRight_mono 17 hqe
    exact List.mem_cons_of_mem _ (List.mem_append_left _
      (List.mem_append_right _ (mem_binRange hlo hhi)))
  · have hlo : qb >>> 20 ≤ rb >>> 20 := by
      have := shiftRight_mono 20 hqb
      omega
    have hhi : rb >>> 20 ≤ (qe - 1) >>> 20 := shiftRight_mono 20 hqe
    exact List.mem_cons_of_mem _ (List.mem_append_left _ (List.mem_append_left _
      (List.mem_append_right _ (mem_binRange hlo hhi))))
  · have hlo : qb >>> 23 ≤ rb >>> 23 := by
      have := shiftRight_mono 23 hqb
      omega
    have hhi : rb >>> 23 ≤ (qe - 1) >>> 23 := shiftRight_mono 23 hqe
    exact List.mem_cons_of_mem _ (List.mem_append_left _ (List.mem_append_left _
      (List.mem_append_left _ (List.mem_append_right _ (mem_binRange hlo hhi)))))
  · have hlo : qb >>> 26 ≤ rb >>> 26 := by
      have := shiftRight_mono 26 hqb
      omega
    have hhi : rb >>> 26 ≤ (qe - 1) >>> 26 := shiftRight_mono 26 hqe
    exact List.mem_cons_of_mem _ (List.mem_append_left _ (List.mem_append_left _
      (List.mem_append_left _ (List.mem_append_left _ (mem_binRange hlo hhi)))))
  · exact List.mem_cons_self _ _

/-! ## Index Builder (spec §4.4)

Modelled from the spec: the index builder is absent from src/ (it lives in
the wrapped native library).  §4.4: the builder consumes records in stream
order paired with the virtual offset of each record's start (modelled as
the record's position in the decoded stream), assigns each record to its
hierarchical bin, and requires input in non-decreasing start-coordinate
order per reference — out-of-order input yields `UnsortedInputError`,
detected eagerly at the offending record (§7). -/

/-- One index entry: a record's reference id, its bin, and the virtual
offset (stream position) where it starts. -/
structure BinEntry where
  ref : Nat
  bin : Nat
  pos : Nat
  deriving DecidableEq, Repr

/-- The bin a record is assigned to: the bin of its interval
[start, start + span). -/
def binOf (r : Record) : Nat := reg2bin r.start (r.start + r.span)

/-- Update the per-reference last-seen start coordinate. -/
def updLast (last : Nat → Option Nat) (ref st : Nat) : Nat → Option Nat :=
  fun x => if x = ref then some st else last x

/-- Does a record step backwards relative to the last start coordinate seen
on its reference? -/
def violatesLast (last : Nat → Option Nat) (r : Record) : Bool :=
  match last r.refId with
  | some st => decide (r.start < st)
  | none => false

/-- Modelled from the spec: the single build pass of §4.4.  Records are
consumed one at a time in stream order; the first record whose start
coordinate decreases on its reference stops the build with
`unsortedInput` at that record's position, before any later record is
consumed. -/
def buildIndex (last : Nat → Option Nat) (i : Nat) :
    List Record → Except EngineError (List BinEntry)
  | [] => Except.ok []
  | r :: rs =>
    if violatesLast last r then Except.error (EngineError.unsortedInput i)
    else
      match buildIndex (updLast last r.refId r.start) (i + 1) rs with
      | Except.error e => Except.error e
      | Except.ok entries => Except.ok (⟨r.refId, binOf r, i⟩ :: entries)

/-- The reader-side view of a built index: entry i-th record at position i. -/
def mkIndex (i : Nat) : List Record → List BinEntry
  | [] => []
  | r :: rs => ⟨r.refId, binOf r, i⟩ :: mkIndex (i + 1) rs

/-- A record stream in non-decreasing start-coordinate order per
reference (§4.4's builder input requirement). -/
def PerRefSorted (rs : List Record) : Prop :=
  List.Pairwise (fun a b => a.refId = b.refId → a.start ≤ b.start) rs

/-- The per-reference last-seen map after consuming a list of records. -/
def lastAfter (last : Nat → Option Nat) : List Record → (Nat → Option Nat)
  | [] => last
  | r :: rs => lastAfter (updLast last r.refId r.start) rs

lemma buildIndex_ok (rs : List Record) :
    ∀ (last : Nat → Option Nat) (i : Nat),
      (∀ ref st, last ref = some st → ∀ r ∈ rs, r.refId = ref → st ≤ r.start) →
      PerRefSorted rs →
      buildIndex last i rs = Except.ok (mkIndex i rs) := by
  induction rs with
  | nil => intro last i _ _; rfl
  | cons r t ih =>
    intro last i hcompat hs
    have hnv : violatesLast last r = false := by
      unfold violatesLast
      cases hl : last r.refId with
      | none => rfl
      | some st =>
        have := hcompat r.refId st hl r (List.mem_cons_self r t) rfl
        simp [Nat.not_lt.mpr this]
    unfold PerRefSorted at hs
    rw [List.pairwise_cons] at hs
    have hrec := ih (updLast last r.refId r.start) (i + 1) ?_ hs.2
    · rw [buildIndex, hnv]
      simp only [Bool.false_eq_true, if_false]
      rw [hrec, mkIndex]
    · intro ref st hl r' hr' href
      unfold updLast at hl
      by_cases hx : ref = r.refId
      · rw [if_pos hx] at hl
        cases hl
        exact hs.1 r' hr' ((href.trans hx).symm)
      · rw [if_neg hx] at hl
        exact hcompat ref st hl r' (List.mem_cons_of_mem r hr') href

lemma buildIndex_append_error (pre : List Record) :
    ∀ (last : Nat → Option Nat) (i : Nat) (rest : List Record) (e : EngineError),
      (∀ ref st, last ref = some st → ∀ r ∈ pre, r.refId = ref → st ≤ r.start) →
      PerRefSorted pre →
      buildIndex (lastAfter last pre) (i + pre.length) rest = Except.error e →
      buildIndex last i (pre ++ rest) = Except.error e := by
  induction pre with
  | nil =>
    intro last i rest e _ _ h
    simpa [lastAfter] using h
  | cons r t ih =>
    intro last i rest e hcompat hs hrest
    have hnv : violatesLast last r = false := by
      unfold violatesLast
      cases hl : last r.refId with
      | none => rfl
      | some st =>
        have := hcompat r.refId st hl r (List.mem_cons_self r t) rfl
        simp [Nat.not_lt.mpr this]
    unfold PerRefSorted at hs
    rw [List.pairwise_cons] at hs
    have hstep : buildIndex (updLast last r.refId r.start) (i + 1) (t ++ rest) =
        Except.error e := by
      refine ih (updLast last r.refId r.start) (i + 1) rest e ?_ hs.2 ?_
      · intro ref st hl r' hr' href
        unfold updLast at hl
        by_cases hx : ref = r.refId
        · rw [if_pos hx] at hl
          cases hl
          exact hs.1 r' hr' ((href.trans hx).symm)
        · rw [if_neg hx] at hl
          exact hcompat ref st hl r' (List.mem_cons_of_mem r hr') href
      · have harith : i + 1 + t.length = i + (r :: t).length := by
          simp [List.length_cons]
          omega
        rw [harith]
        show buildIndex (lastAfter last (r :: t)) (i + (r :: t).length) rest = Except.error e
        exact hrest
    show buildIndex last i (r :: (t ++ rest)) = Except.error e
    rw [buildIndex, hnv]
    simp only [Bool.false_eq_true, if_false]
    rw [hstep]

lemma lastAfter_lower (t : List Record) :
    ∀ (last : Nat → Option Nat) (ref st : Nat),
      last ref = some st →
      PerRefSorted t →
      (∀ r ∈ t, r.refId = ref → st ≤ r.start) →
      ∃ m, lastAfter last t ref = some m ∧ st ≤ m := by
  induction t with
  | nil => intro last ref st hl _ _; exact ⟨st, hl, le_refl st⟩
  | cons q u ih =>
    intro last ref st hl hs hmono
    unfold PerRefSorted at hs
    rw [List.pairwise_cons] at hs
    by_cases hq : q.refId = ref
    · have hstq : st ≤ q.start := hmono q (List.mem_cons_self q u) hq
      obtain ⟨m, hm, hle⟩ := ih (updLast last q.refId q.start) ref q.start
        (by unfold updLast; rw [if_pos hq.symm]) hs.2
        (fun r hr hrefr => hs.1 r hr (hrefr.symm ▸ hq))
      exact ⟨m, hm, le_trans hstq hle⟩
    · obtain ⟨m, hm, hle⟩ := ih (updLast last q.refId q.start) ref st
        (by unfold updLast; rw [if_neg (fun h => hq h.symm)]; exact hl) hs.2
        (fun r hr hrefr => hmono r (List.mem_cons_of_mem q hr) hrefr)
      exact ⟨m, hm, hle⟩

lemma lastAfter_of_mem (pre : List Record) :
    ∀ (last : Nat → Option Nat) (r : Record),
      r ∈ pre → PerRefSorted pre →
      ∃ m, lastAfter last pre r.refId = some m ∧ r.start ≤ m := by
  induction pre with
  | nil => intro _ r hr; exact absurd hr (List.not_mem_nil r)
  | cons p t ih =>
    intro last r hr hs
    unfold PerRefSorted at hs
    rw [List.pairwise_cons] at hs
    rcases List.mem_cons.mp hr with heq | hmem
    · subst heq
      exact lastAfter_lower t (updLast last r.refId r.start) r.refId r.start
        (by unfold updLast; rw [if_pos rfl]) hs.2
        (fun r' hr' href => hs.1 r' hr' href.symm)
    · exact ih (updLast last p.refId p.start) r hmem hs.2

/-- C6: the index builder accepts every per-reference non-decreasing input
without error, and on input whose record at position `pre.length` steps
backwards relative to an earlier record on the same reference it raises
`unsortedInput` at exactly that position — whatever records follow, so the
build stops before consuming any later record and before completing. -/
theorem unsorted_input_detection :
    (∀ rs : List Record, PerRefSorted rs →
      buildIndex (fun _ => none) 0 rs = Except.ok (mkIndex 0 rs)) ∧
    (∀ (pre : List Record) (bad : Record) (post : List Record),
      PerRefSorted pre →
      (∃ r ∈ pre, r.refId = bad.refId ∧ bad.start < r.start) →
      buildIndex (fun _ => none) 0 (pre ++ bad :: post) =
        Except.error (EngineError.unsortedInput pre.length)) := by
  constructor
  · intro rs hs
    exact buildIndex_ok rs (fun _ => none) 0 (by intro ref st h; cases h) hs
  · intro pre bad post hs ⟨r, hr, href, hlt⟩
    refine buildIndex_append_error pre (fun _ => none) 0 (bad :: post)
      (EngineError.unsortedInput pre.length) (by intro ref st h; cases h) hs ?_
    obtain ⟨m, hm, hle⟩ := lastAfter_of_mem pre (fun _ => none) r hr hs
    rw [buildIndex]
    have hv : violatesLast (lastAfter (fun _ => none) pre) bad = true := by
      unfold violatesLast
      rw [← href, hm]
      simp
      omega
    rw [hv]
    simp

/-- Witness for C6: the sorted stream [(ref 0, start 100), (ref 0, start
200)] builds fine, while placing a record at start 50 after the one at 100
stops the build with `unsortedInput` at position 1. -/
theorem unsorted_input_detection_witness :
    buildIndex (fun _ => none) 0
        [⟨0, 100, 10, [], RecPayload.variant [] []⟩,
         ⟨0, 200, 10, [], RecPayload.variant [] []⟩] =
      Except.ok (mkIndex 0
        [⟨0, 100, 10, [], RecPayload.variant [] []⟩,
         ⟨0, 200, 10, [], RecPayload.variant [] []⟩]) ∧
    buildIndex (fun _ => none) 0
        ([⟨0, 100, 10, [], RecPayload.variant [] []⟩] ++
          ⟨0, 50, 10, [], RecPayload.variant [] []⟩ ::
          [⟨0, 200, 10, [], RecPayload.variant [] []⟩]) =
      Except.error (EngineError.unsortedInput 1) := by
  constructor
  · exact unsorted_input_detection.1 _ (by unfold PerRefSorted; simp)
  · exact unsorted_input_detection.2 _ _ _ (by unfold PerRefSorted; simp)
      ⟨⟨0, 100, 10, [], RecPayload.variant [] []⟩, by simp, rfl, by decide⟩

/-! ## Iterator / Query Engine (spec §4.5)

Modelled from the spec: the iterator/query engine is absent from src/ (it
lives in the wrapped native library).  A whole-file scan bypasses the
index and streams every block in order, decompressing each block and
decoding record after record.  A region-bounded iterator seeks via the
index (bin lookup giving candidate virtual offsets) and then filters the
decoded records client-side by exact interval overlap, since bin
granularity over-selects. -/

lemma decodeOne_rem_length {buf : List Nat} {r : Record} {rem : List Nat}
    (h : decodeOne buf = Except.ok (r, rem)) : rem.length < buf.length := by
  cases buf with
  | nil => simp [decodeOne] at h
  | cons len rest =>
    simp only [decodeOne] at h
    by_cases hle : len ≤ rest.length
    · rw [if_pos hle] at h
      cases hp : parseBody (rest.take len) with
      | ok rr =>
        rw [hp] at h
        cases h
        simp only [List.length_cons, List.length_drop]
        omega
      | error e => rw [hp] at h; cases h
    · rw [if_neg hle] at h; cases h

/-- Decode records off the front of a buffer until it is exhausted.  The
fuel only bounds the recursion; since every record occupies at least one
cell, a fuel equal to the buffer length is always sufficient. -/
def decodeRecordsGo : Nat → List Nat → Except EngineError (List Record)
  | _, [] => Except.ok []
  | 0, _ :: _ => Except.error EngineError.truncatedRecord
  | fuel + 1, x :: rest =>
    match decodeOne (x :: rest) with
    | Except.error e => Except.error e
    | Except.ok (r, rem) =>
      match decodeRecordsGo fuel rem with
      | Except.error e => Except.error e
      | Except.ok rs => Except.ok (r :: rs)

/-- Decode every record of a decompressed byte stream, in stream order. -/
def decodeRecords (buf : List Nat) : Except EngineError (List Record) :=
  decodeRecordsGo buf.length buf

/-- Serialize a record stream: the records' encodings, back to back. -/
def encodeRecords (rs : List Record) : List Nat := (rs.map encodeRecord).flatten

lemma encodeRecords_cons (r : Record) (t : List Record) :
    encodeRecords (r :: t) = encodeRecord r ++ encodeRecords t := by
  simp [encodeRecords]

lemma encodeRecord_ne_nil (r : Record) : encodeRecord r ≠ [] := by
  simp [encodeRecord, withLen]

lemma encodeRecord_length_pos (r : Record) : 0 < (encodeRecord r).length := by
  simp [encodeRecord, withLen]

lemma decodeRecordsGo_encodeRecords (rs : List Record) :
    ∀ fuel, (encodeRecords rs).length ≤ fuel →
      decodeRecordsGo fuel (encodeRecords rs) = Except.ok rs := by
  induction rs with
  | nil => intro fuel _; cases fuel <;> rfl
  | cons r t ih =>
    intro fuel hlen
    rw [encodeRecords_cons] at hlen ⊢
    cases fuel with
    | zero =>
      exfalso
      rw [List.length_append] at hlen
      have := encodeRecord_length_pos r
      omega
    | succ fuel =>
      have hshape : encodeRecord r ++ encodeRecords t =
          (r.refId :: r.start :: r.span ::
            (withLen r.name ++ encodePayload r.payload)).length ::
          ((r.refId :: r.start :: r.span ::
            (withLen r.name ++ encodePayload r.payload)) ++ encodeRecords t) := rfl
      rw [hshape]
      simp only [decodeRecordsGo]
      rw [← hshape, decodeOne_encodeRecord r (encodeRecords t)]
      have hle : (encodeRecords t).length ≤ fuel := by
        rw [List.length_append] at hlen
        have := encodeRecord_length_pos r
        omega
      show (match decodeRecordsGo fuel (encodeRecords t) with
        | Except.error e => Except.error e
        | Except.ok rs => Except.ok (r :: rs)) = Except.ok (r :: t)
      rw [ih fuel hle]

lemma decodeRecords_encodeRecords (rs : List Record) :
    decodeRecords (encodeRecords rs) = Except.ok rs :=
  decodeRecordsGo_encodeRecords rs (encodeRecords rs).length (le_refl _)

/-- Modelled from the spec (§4.5): a whole-file scan streams every block in
order, decompressing block after block and decoding every record — the
index is bypassed. -/
def fullScan (blocks : List CompressedBlock) : Except EngineError (List Record) :=
  match readAllBuffers ⟨blocks⟩ with
  | Except.error e => Except.error e
  | Except.ok bufs => decodeRecords bufs.flatten

/-- Exact client-side interval-overlap filter of the engine (§4.5): the
record is on the queried reference and its half-open interval
[start, start + span) meets the query interval [s, e). -/
def overlapsB (ref s e : Nat) (r : Record) : Bool :=
  decide (r.refId = ref) && decide (r.start < e) && decide (s < r.start + r.span)

/-- Index lookup of §4.4's reader: virtual offsets of all entries whose
reference matches and whose bin the query visits, in stream order. -/
def candidatePositions (entries : List BinEntry) (ref s e : Nat) : List Nat :=
  (entries.filter (fun t => decide (t.ref = ref) && decide (t.bin ∈ reg2bins s e))).map
    (fun t => t.pos)

/-- Modelled from the spec (§4.5): a region-bounded iterator seeks each
index-selected virtual offset, decodes the record there, and yields it
only if it passes the exact overlap filter. -/
def regionIterate (rs : List Record) (ref s e : Nat) : List Record :=
  (candidatePositions (mkIndex 0 rs) ref s e).filterMap (fun p =>
    match rs[p]? with
    | some r => if overlapsB ref s e r then some r else none
    | none => none)

lemma candidatePositions_cons (x : BinEntry) (l : List BinEntry) (ref s e : Nat) :
    candidatePositions (x :: l) ref s e =
      if (decide (x.ref = ref) && decide (x.bin ∈ reg2bins s e)) = true then
        x.pos :: candidatePositions l ref s e
      else candidatePositions l ref s e := by
  cases h : decide (x.ref = ref) && decide (x.bin ∈ reg2bins s e) <;>
    simp [candidatePositions, List.filter_cons, h]

lemma drop_cons_parts {α : Type} :
    ∀ (l : List α) (n : Nat) (x : α) (xs : List α),
      l.drop n = x :: xs → l[n]? = some x ∧ l.drop (n + 1) = xs := by
  intro l
  induction l with
  | nil => intro n x xs h; rw [List.drop_nil] at h; cases h
  | cons a t ih =>
    intro n x xs h
    cases n with
    | zero =>
      rw [List.drop_zero] at h
      cases h
      exact ⟨by simp, by rw [List.drop_succ_cons, List.drop_zero]⟩
    | succ m =>
      rw [List.drop_succ_cons] at h
      obtain ⟨h1, h2⟩ := ih m x xs h
      refine ⟨by simpa using h1, ?_⟩
      rw [List.drop_succ_cons]
      exact h2

lemma overlapsB_true_iff {ref s e : Nat} {r : Record} :
    overlapsB ref s e r = true ↔
      r.refId = ref ∧ r.start < e ∧ s < r.start + r.span := by
  simp [overlapsB, Bool.and_eq_true, decide_eq_true_iff, and_assoc]

lemma regionIterate_go (full : List Record) (ref s e : Nat) :
    ∀ (rs : List Record) (n : Nat), full.drop n = rs → (∀ r ∈ rs, 1 ≤ r.span) →
      (candidatePositions (mkIndex n rs) ref s e).filterMap (fun p =>
        match full[p]? with
        | some r => if overlapsB ref s e r then some r else none
        | none => none) = rs.filter (overlapsB ref s e) := by
  intro rs
  induction rs with
  | nil => intro n _ _; rfl
  | cons r t ih =>
    intro n hdrop hspan
    obtain ⟨hget, hdropt⟩ := drop_cons_parts full n r t hdrop
    have hspant : ∀ r' ∈ t, 1 ≤ r'.span := fun r' hr' => hspan r' (List.mem_cons_of_mem r hr')
    rw [mkIndex, candidatePositions_cons]
    split_ifs with hpred
    · rw [List.filterMap_cons]
      simp only [hget]
      cases hov : overlapsB ref s e r with
      | true =>
        rw [if_pos rfl]
        rw [ih (n + 1) hdropt hspant, List.filter_cons_of_pos hov]
      | false =>
        simp only [Bool.false_eq_true, if_false]
        rw [ih (n + 1) hdropt hspant, List.filter_cons_of_neg (by simp [hov])]
    · have hov : overlapsB ref s e r = false := by
        by_contra hcon
        rw [Bool.not_eq_false, overlapsB_true_iff] at hcon
        obtain ⟨href, hlt, hgt⟩ := hcon
        refine hpred ?_
        rw [Bool.and_eq_true, decide_eq_true_iff, decide_eq_true_iff]
        have hrb : r.start < r.start + r.span := by
          have := hspan r (List.mem_cons_self r t)
          omega
        exact ⟨href, reg2bin_mem_reg2bins hrb hlt hgt⟩
      rw [ih (n + 1) hdropt hspant, List.filter_cons_of_neg (by simp [hov])]

lemma filter_overlaps_sorted (rs : List Record) (ref s e : Nat)
    (hs : PerRefSorted rs) :
    List.Pairwise (fun a b => a.start ≤ b.start) (rs.filter (overlapsB ref s e)) := by
  unfold PerRefSorted at hs
  have h1 := hs.filter (overlapsB ref s e)
  refine List.Pairwise.imp_of_mem ?_ h1
  intro a b ha hb hab
  have ha' := (List.mem_filter.mp ha).2
  have hb' := (List.mem_filter.mp hb).2
  rw [overlapsB_true_iff] at ha' hb'
  exact hab (ha'.1.trans hb'.1.symm)

lemma encodeRecords_ne_nil {c : List Record} (hc : c ≠ []) : encodeRecords c ≠ [] := by
  cases c with
  | nil => exact absurd rfl hc
  | cons r t =>
    rw [encodeRecords_cons]
    intro h
    exact encodeRecord_ne_nil r (List.append_eq_nil.mp h).1

lemma flatten_map_encodeRecords (chunks : List (List Record)) :
    (chunks.map encodeRecords).flatten = encodeRecords chunks.flatten := by
  induction chunks with
  | nil => rfl
  | cons c cs ih =>
    simp only [List.map_cons, List.flatten_cons, ih]
    simp [encodeRecords, List.map_append, List.flatten_append]

/-- C1: over any stream of sorted records packed into compressed blocks,
the whole-file scan (no region constraint) yields every record in exactly
physical stream order, and the region-bounded iterator over [s, e) yields
exactly the records whose interval [start, start + span) overlaps [s, e)
on the queried reference — no false negatives past the index, no false
positives past the client-side filter — in ascending start-coordinate
order. -/
theorem region_query_engine (chunks : List (List Record)) (ref s e : Nat)
    (hne : ∀ c ∈ chunks, c ≠ [])
    (hspan : ∀ r ∈ chunks.flatten, 1 ≤ r.span)
    (hsorted : PerRefSorted chunks.flatten) :
    fullScan (chunks.map (fun c => compress (encodeRecords c)) ++ [terminalBlock]) =
      Except.ok chunks.flatten ∧
    regionIterate chunks.flatten ref s e =
      (chunks.flatten).filter (overlapsB ref s e) ∧
    List.Pairwise (fun a b => a.start ≤ b.start)
      (regionIterate chunks.flatten ref s e) := by
  have hfilter : regionIterate chunks.flatten ref s e =
      (chunks.flatten).filter (overlapsB ref s e) := by
    unfold regionIterate
    exact regionIterate_go chunks.flatten ref s e chunks.flatten 0 (List.drop_zero _) hspan
  refine ⟨?_, hfilter, ?_⟩
  · unfold fullScan
    have hcomp : chunks.map (fun c => compress (encodeRecords c)) =
        (chunks.map encodeRecords).map compress := by
      rw [List.map_map]; rfl
    have hne' : ∀ b ∈ chunks.map encodeRecords, b ≠ [] := by
      intro b hb
      obtain ⟨c, hc, rfl⟩ := List.mem_map.mp hb
      exact encodeRecords_ne_nil (hne c hc)
    rw [hcomp, readAllBuffers_complete (chunks.map encodeRecords) hne']
    show decodeRecords (chunks.map encodeRecords).flatten = Except.ok chunks.flatten
    rw [flatten_map_encodeRecords, decodeRecords_encodeRecords]
  · rw [hfilter]
    exact filter_overlaps_sorted chunks.flatten ref s e hsorted

/-- Witness for C1: two single-record blocks on reference 0, starts 100
and 200, spans 10 and 5, queried over [105, 205). -/
theorem region_query_engine_witness :
    fullScan (([[⟨0, 100, 10, [], RecPayload.variant [] []⟩],
        [⟨0, 200, 5, [], RecPayload.alignment [] [] []⟩]] : List (List Record)).map
          (fun c => compress (encodeRecords c)) ++ [terminalBlock]) =
      Except.ok ([[⟨0, 100, 10, [], RecPayload.variant [] []⟩],
        [⟨0, 200, 5, [], RecPayload.alignment [] [] []⟩]] : List (List Record)).flatten ∧
    regionIterate ([[⟨0, 100, 10, [], RecPayload.variant [] []⟩],
        [⟨0, 200, 5, [], RecPayload.alignment [] [] []⟩]] : List (List Record)).flatten
        0 105 205 =
      (([[⟨0, 100, 10, [], RecPayload.variant [] []⟩],
        [⟨0, 200, 5, [], RecPayload.alignment [] [] []⟩]] : List (List Record)).flatten).filter
        (overlapsB 0 105 205) ∧
    List.Pairwise (fun a b => a.start ≤ b.start)
      (regionIterate ([[⟨0, 100, 10, [], RecPayload.variant [] []⟩],
        [⟨0, 200, 5, [], RecPayload.alignment [] [] []⟩]] : List (List Record)).flatten
        0 105 205) :=
  region_query_engine
    [[⟨0, 100, 10, [], RecPayload.variant [] []⟩],
     [⟨0, 200, 5, [], RecPayload.alignment [] [] []⟩]] 0 105 205
    (by decide) (by decide) (by unfold PerRefSorted; decide)

/-! ## Region queries over the open handle (spec §6, §7)

Modelled from the spec: the `handle.fetch(reference, start, end)` surface
of §6 is absent from src/ (it lives in the wrapped native library).  §3:
the handle owns a reference sequence table of ordered (name, length)
pairs; records refer to it by integer id.  §7: missing region or
reference queries return an empty result rather than erroring. -/

/-- Resolve a reference name to its integer id in the header's reference
sequence table. -/
def lookupRef (tbl : List (String × Nat)) (nm : String) : Option Nat :=
  tbl.findIdx? (fun p => p.1 == nm)

/-- Modelled from the spec: `handle.fetch(reference, start, end) -> record
sequence` (§6).  A reference name absent from the header yields the empty
sequence, a normal outcome (§7), not a `regionNotFound` failure. -/
def fetch (tbl : List (String × Nat)) (rs : List Record) (nm : String) (s e : Nat) :
    Except EngineError (List Record) :=
  match lookupRef tbl nm with
  | none => Except.ok []
  | some rid => Except.ok (regionIterate rs rid s e)

lemma mem_of_getElemOpt {α : Type} :
    ∀ (l : List α) (n : Nat) (x : α), l[n]? = some x → x ∈ l := by
  intro l
  induction l with
  | nil => intro n x h; cases h
  | cons a t ih =>
    intro n x h
    cases n with
    | zero =>
      simp only [List.getElem?_cons_zero, Option.some.injEq] at h
      exact h ▸ List.mem_cons_self a t
    | succ m =>
      rw [List.getElem?_cons_succ] at h
      exact List.mem_cons_of_mem a (ih m x h)

lemma regionIterate_sound {rs : List Record} {ref s e : Nat} {r : Record}
    (h : r ∈ regionIterate rs ref s e) :
    overlapsB ref s e r = true ∧ r ∈ rs := by
  unfold regionIterate at h
  obtain ⟨p, _, hmatch⟩ := List.mem_filterMap.mp h
  cases hq : rs[p]? with
  | none => rw [hq] at hmatch; cases hmatch
  | some r' =>
    rw [hq] at hmatch
    change (if overlapsB ref s e r' = true then some r' else none) = some r at hmatch
    cases hov : overlapsB ref s e r' with
    | true =>
      rw [hov] at hmatch
      simp only [if_true] at hmatch
      cases hmatch
      exact ⟨hov, mem_of_getElemOpt rs p r hq⟩
    | false =>
      rw [hov] at hmatch
      simp only [Bool.false_eq_true, if_false] at hmatch
      cases hmatch

/-- C7: a region query naming a reference absent from the header's
reference table returns the empty record sequence — it does not raise
`regionNotFound` or any other error — and likewise a query over an
interval containing no overlapping data returns the empty sequence. -/
theorem missing_region_empty (tbl : List (String × Nat)) (rs : List Record)
    (nm : String) (s e : Nat) :
    (lookupRef tbl nm = none → fetch tbl rs nm s e = Except.ok []) ∧
    (∀ rid, lookupRef tbl nm = some rid →
      (∀ r ∈ rs, overlapsB rid s e r = false) →
      fetch tbl rs nm s e = Except.ok []) := by
  constructor
  · intro h
    unfold fetch
    rw [h]
  · intro rid h hnone
    unfold fetch
    rw [h]
    have hempty : regionIterate rs rid s e = [] := by
      cases hres : regionIterate rs rid s e with
      | nil => rfl
      | cons x xs =>
        exfalso
        have hx : x ∈ regionIterate rs rid s e := by
          rw [hres]; exact List.mem_cons_self x xs
        obtain ⟨hov, hmem⟩ := regionIterate_sound hx
        rw [hnone x hmem] at hov
        cases hov
    show Except.ok (regionIterate rs rid s e) = Except.ok []
    rw [hempty]

/-- Witness for C7: a header with only "chr1" queried for "chr2" (absent)
returns the empty sequence without error. -/
theorem missing_region_empty_witness :
    fetch [("chr1", 1000)] [⟨0, 100, 10, [], RecPayload.variant [] []⟩]
      "chr2" 0 50 = Except.ok [] :=
  (missing_region_empty [("chr1", 1000)]
    [⟨0, 100, 10, [], RecPayload.variant [] []⟩] "chr2" 0 50).1 (by decide)

/-! ## Python glue: src/pysam/__init__.py

These definitions are embedded directly from the repository source. -/

/-- Module names bound in the pysam package namespace by the import
statements of src/pysam/__init__.py (lines 1-26) once they have run.
`import pysam.X as X` binds X directly; `from pysam.X import *` also
leaves X bound, because importing the submodule sets it as an attribute
of the pysam package, whose attribute namespace is this module body's
global namespace.  The libctabixproxies import (lines 12-13) is commented
out, so that name is never bound. -/
def boundModuleNames : List String :=
  ["os", "sys", "sysconfig",
   "libchtslib", "libcutils", "libcfaidx", "libctabix", "libcsamfile",
   "libcalignmentfile", "libcalignedsegment", "libcvcf", "libcbcf",
   "libcbgzf", "Pileup"]

/-- The eleven module names whose `__all__` lists the `__all__`
assignment of src/pysam/__init__.py (lines 30-41) concatenates, in
left-to-right evaluation order. -/
def allSummands : List String :=
  ["libchtslib", "libcutils", "libctabix", "libcvcf", "libcbcf",
   "libcbgzf", "libcfaidx", "libctabixproxies", "libcalignmentfile",
   "libcalignedsegment", "libcsamfile"]

/-- Name lookup in the module namespace during the `__all__` assignment:
a name no import bound raises NameError.  `env` gives each bound
submodule's `__all__` list (their contents live outside this repository). -/
def lookupModule (env : String → List String) (nm : String) :
    Except String (List String) :=
  if boundModuleNames.contains nm then Except.ok (env nm)
  else Except.error ("NameError: name " ++ nm ++ " is not defined")

/-- The `__all__` assignment of src/pysam/__init__.py lines 30-41: the
left-to-right concatenation of the eleven submodules' `__all__` lists,
aborting at the first unbound name, exactly as the Python expression
evaluates. -/
def evalDunderAll (env : String → List String) : Except String (List String) :=
  allSummands.foldl (fun acc nm =>
    match acc with
    | Except.error e => Except.error e
    | Except.ok l =>
      match lookupModule env nm with
      | Except.error e => Except.error e
      | Except.ok l2 => Except.ok (l ++ l2)) (Except.ok [])

/-- C9 (code bug): whatever `__all__` contents the wrapped submodules
export, evaluating the package module body's `__all__` assignment raises
NameError on `libctabixproxies` — its import at lines 12-13 is commented
out while line 38 still reads `libctabixproxies.__all__` — so importing
the pysam package never completes, contradicting the claim. -/
theorem import_pysam_raises (env : String → List String) :
    evalDunderAll env =
      Except.error "NameError: name libctabixproxies is not defined" := by
  rfl

/-- The seven stem names listed in get_libraries
(src/pysam/__init__.py lines 66-72), in source order; libcsamtools is
deliberately not among them (name clashes with libchtslib, line 63-64). -/
def pysamLibNames : List String :=
  ["libctabixproxies", "libcfaidx", "libcsamfile", "libcvcf", "libcbcf",
   "libchtslib", "libctabix"]

/-- os.path.join of the package directory with a file name. -/
def joinPath (d f : String) : String := d ++ "/" ++ f

/-- get_libraries of src/pysam/__init__.py lines 61-75: the seven stems,
each suffixed with the platform shared-object extension `so` and joined
onto the absolute package directory `dirname`. -/
def get_libraries (dirname so : String) : List String :=
  pysamLibNames.map (fun x => joinPath dirname (x ++ so))

/-- C10: get_libraries returns exactly seven paths — the seven stems in
source order, each suffixed with the shared-object extension and joined
onto the package directory — and libcsamtools is not among the stems. -/
theorem get_libraries_spec (dirname so : String) :
    (get_libraries dirname so).length = 7 ∧
    get_libraries dirname so =
      [joinPath dirname ("libctabixproxies" ++ so),
       joinPath dirname ("libcfaidx" ++ so),
       joinPath dirname ("libcsamfile" ++ so),
       joinPath dirname ("libcvcf" ++ so),
       joinPath dirname ("libcbcf" ++ so),
       joinPath dirname ("libchtslib" ++ so),
       joinPath dirname ("libctabix" ++ so)] ∧
    "libcsamtools" ∉ pysamLibNames := by
  exact ⟨rfl, rfl, by decide⟩

end Pysam2
